import Mathlib

/-!
Shallow embedding of the Mini-RAG core (`rag_core.py`) and proofs about it.

Text is modelled as `List Char` (Python strings are character sequences;
`len`, slicing, `replace` and concatenation become list operations).
Embedding vectors are modelled as `List ℚ` (the floats of the embedding
model, idealized as exact numbers); the external embedding model
`embed_model.encode` is an uninterpreted parameter `embed`, the external
LLM call an uninterpreted parameter `llm`, and Python's `f"{x:.3f}"`
float formatting an uninterpreted parameter `fmt3`.
-/

set_option autoImplicit false

namespace MiniRAG

/-- Python strings, as character lists. -/
abbrev Str := List Char

/-- Embedding vectors (`np.ndarray` of floats), idealized over ℚ. -/
abbrev Vec := List ℚ

/-! ## Chunker (`chunk_text`, rag_core.py lines 125-132) -/

/--
The `while start < len(text)` loop of `chunk_text`, translated with an
explicit fuel counter so that the (possible) divergence of the Python
loop is observable: `none` means the fuel ran out before the loop
finished.  Each iteration appends `text[start:start+maxChars]` and sets
`start := start + maxChars`.
-/
def chunkTextFuel (maxChars : ℕ) (text : Str) : ℕ → ℕ → Option (List Str)
  | 0, _ => none
  | fuel + 1, start =>
    if start < text.length then
      (chunkTextFuel maxChars text fuel (start + maxChars)).map
        (fun rest => (text.drop start).take maxChars :: rest)
    else
      some []

/--
The same loop as a total function.  The extra guard `0 < maxChars` is
exactly the condition under which the Python loop terminates
(`chunk_text_termination` below proves the fuel translation agrees with
this definition whenever `0 < maxChars`, and diverges when
`maxChars = 0` on non-empty text).
-/
def chunkTextLoop (maxChars : ℕ) (text : Str) (start : ℕ) : List Str :=
  if _h : start < text.length ∧ 0 < maxChars then
    (text.drop start).take maxChars :: chunkTextLoop maxChars text (start + maxChars)
  else
    []
termination_by text.length - start
decreasing_by omega

/-- The function `chunk_text(text, max_chars)` from rag_core.py. -/
def chunk_text (text : Str) (maxChars : ℕ) : List Str :=
  chunkTextLoop maxChars text 0

theorem chunkTextLoop_join (maxChars : ℕ) (text : Str) (hM : 0 < maxChars) :
    ∀ start, (chunkTextLoop maxChars text start).flatten = text.drop start := by
  intro start
  induction start using chunkTextLoop.induct maxChars text with
  | case1 start h ih =>
    rw [chunkTextLoop, dif_pos h]
    rw [List.flatten_cons, ih]
    rw [← List.drop_drop]
    exact List.take_append_drop _ _
  | case2 start h =>
    rw [chunkTextLoop, dif_neg h]
    have hge : text.length ≤ start := by
      rcases Nat.lt_or_ge start text.length with h1 | h1
      · exact absurd ⟨h1, hM⟩ h
      · exact h1
    simp [List.drop_eq_nil_of_le hge]

theorem chunkTextLoop_mem_length (maxChars : ℕ) (text : Str) :
    ∀ start, ∀ c ∈ chunkTextLoop maxChars text start, c.length ≤ maxChars := by
  intro start
  induction start using chunkTextLoop.induct maxChars text with
  | case1 start h ih =>
    rw [chunkTextLoop, dif_pos h]
    intro c hc
    rcases List.mem_cons.mp hc with hc | hc
    · subst hc; exact List.length_take_le _ _
    · exact ih c hc
  | case2 start h =>
    rw [chunkTextLoop, dif_neg h]
    intro c hc
    exact absurd hc (List.not_mem_nil c)

/-- Ceiling-division step: for `0 < n`, `⌈n/M⌉ = ⌈(n-M)/M⌉ + 1`. -/
theorem ceilDiv_step (n M : ℕ) (hM : 0 < M) (hn : 0 < n) :
    (n + M - 1) / M = (n - M + M - 1) / M + 1 := by
  rcases le_or_lt n M with hle | hlt
  · have h1 : n - M = 0 := by omega
    rw [h1]
    have h2 : 0 + M - 1 = M - 1 := by omega
    rw [h2]
    have h3 : (M - 1) / M = 0 := Nat.div_eq_of_lt (by omega)
    rw [h3]
    have h4 : n + M - 1 = (n - 1) + M := by omega
    rw [h4, Nat.add_div_right _ hM]
    have h5 : (n - 1) / M = 0 := Nat.div_eq_of_lt (by omega)
    rw [h5]
  · have h1 : n + M - 1 = (n - 1) + M := by omega
    have h2 : n - M + M - 1 = (n - M - 1) + M := by omega
    have h3 : n - 1 = (n - M - 1) + M := by omega
    rw [h1, Nat.add_div_right _ hM, h2, Nat.add_div_right _ hM, h3,
      Nat.add_div_right _ hM]

theorem chunkTextLoop_length (maxChars : ℕ) (text : Str) (hM : 0 < maxChars) :
    ∀ start, (chunkTextLoop maxChars text start).length
      = (text.length - start + maxChars - 1) / maxChars := by
  intro start
  induction start using chunkTextLoop.induct maxChars text with
  | case1 start h ih =>
    rw [chunkTextLoop, dif_pos h, List.length_cons, ih]
    have hstep := ceilDiv_step (text.length - start) maxChars h.2 (by omega)
    have harg : text.length - (start + maxChars) = text.length - start - maxChars := by
      omega
    rw [harg]
    omega
  | case2 start h =>
    rw [chunkTextLoop, dif_neg h]
    have hge : text.length ≤ start := by
      rcases Nat.lt_or_ge start text.length with h1 | h1
      · exact absurd ⟨h1, hM⟩ h
      · exact h1
    have hz : text.length - start = 0 := by omega
    rw [List.length_nil, hz, Nat.div_eq_of_lt (by omega)]

/--
C1: for every text `T` and `M > 0`, `chunk_text T M` splits `T` into
consecutive non-overlapping substrings: their in-order concatenation is
`T`, every chunk has length at most `M`, the number of chunks is
`⌈len(T)/M⌉`, and empty input yields the empty sequence.
-/
theorem chunk_text_spec (text : Str) (M : ℕ) (hM : 0 < M) :
    (chunk_text text M).flatten = text
      ∧ (∀ c ∈ chunk_text text M, c.length ≤ M)
      ∧ (chunk_text text M).length = (text.length + M - 1) / M
      ∧ (text = [] → chunk_text text M = []) := by
  refine ⟨?_, ?_, ?_, ?_⟩
  · have h := chunkTextLoop_join M text hM 0
    simpa [chunk_text] using h
  · exact chunkTextLoop_mem_length M text 0
  · have h := chunkTextLoop_length M text hM 0
    simpa [chunk_text] using h
  · intro htext
    subst htext
    rw [chunk_text, chunkTextLoop]
    simp

/-- Concrete instance of `chunk_text_spec` at `text = "abcde"`, `M = 2`. -/
theorem chunk_text_spec_witness :
    0 < 2
      ∧ ((chunk_text "abcde".data 2).flatten = "abcde".data
        ∧ (∀ c ∈ chunk_text "abcde".data 2, c.length ≤ 2)
        ∧ (chunk_text "abcde".data 2).length = ("abcde".data.length + 2 - 1) / 2
        ∧ ("abcde".data = [] → chunk_text "abcde".data 2 = [])) :=
  ⟨by decide, chunk_text_spec "abcde".data 2 (by decide)⟩

/-- With positive `maxChars`, fuel `text.length + 1` always suffices. -/
theorem chunkTextFuel_of_pos (maxChars : ℕ) (text : Str) (hM : 0 < maxChars) :
    ∀ fuel start, text.length - start < fuel →
      chunkTextFuel maxChars text fuel start
        = some (chunkTextLoop maxChars text start) := by
  intro fuel
  induction fuel with
  | zero => intro start h; omega
  | succ fuel ih =>
    intro start h
    by_cases hs : start < text.length
    · rw [chunkTextFuel, if_pos hs, ih (start + maxChars) (by omega)]
      conv_rhs => rw [chunkTextLoop]
      rw [dif_pos ⟨hs, hM⟩]
      rfl
    · rw [chunkTextFuel, if_neg hs]
      conv_rhs => rw [chunkTextLoop]
      rw [dif_neg (fun hcon => hs hcon.1)]

/-- With `maxChars = 0` the loop never leaves a position inside the text. -/
theorem chunkTextFuel_zero (text : Str) :
    ∀ fuel start, start < text.length →
      chunkTextFuel 0 text fuel start = none := by
  intro fuel
  induction fuel with
  | zero => intro start _; rfl
  | succ fuel ih =>
    intro start h
    rw [chunkTextFuel, if_pos h]
    simp only [Nat.add_zero]
    rw [ih start h]
    rfl

/--
C9: for `max_chars > 0` the `chunk_text` loop terminates (fuel
`len(text) + 1` suffices and computes `chunk_text`), and the positivity
is necessary: with `max_chars = 0` and non-empty text the loop never
terminates (no amount of fuel completes it).
-/
theorem chunk_text_termination :
    (∀ (text : Str) (M : ℕ), 0 < M →
        chunkTextFuel M text (text.length + 1) 0 = some (chunk_text text M))
      ∧ (∀ text : Str, text ≠ [] →
          ∀ fuel, chunkTextFuel 0 text fuel 0 = none) := by
  constructor
  · intro text M hM
    exact chunkTextFuel_of_pos M text hM (text.length + 1) 0 (by omega)
  · intro text htext fuel
    refine chunkTextFuel_zero text fuel 0 ?_
    cases text with
    | nil => exact absurd rfl htext
    | cons c cs => simp

/-- Concrete instance of `chunk_text_termination`. -/
theorem chunk_text_termination_witness :
    (0 < 2 ∧ chunkTextFuel 2 "abc".data ("abc".data.length + 1) 0
        = some (chunk_text "abc".data 2))
      ∧ ("a".data ≠ [] ∧ chunkTextFuel 0 "a".data 7 0 = none) :=
  ⟨⟨by decide, chunk_text_termination.1 "abc".data 2 (by decide)⟩,
   ⟨by decide, chunk_text_termination.2 "a".data (by decide) 7⟩⟩

/-! ## Query-embedding cache (`get_query_embedding`, rag_core.py lines 96-107)

The Python cache is a `dict[str, np.ndarray]` used in insertion order:
lookup by key, `pop(next(iter(cache)))` removes the first-inserted
entry, and assigning a fresh key appends it at the end.  We model it as
an association list in insertion order.
-/

/-- The constant `MAX_QUERY_CACHE_SIZE` from rag_core.py. -/
def MAX_QUERY_CACHE_SIZE : ℕ := 100

/-- The in-memory query cache, in insertion order (oldest first). -/
abbrev Cache := List (Str × Vec)

/-- Dictionary lookup (keys are unique in a Python dict, so first match). -/
def cacheLookup (cache : Cache) (q : Str) : Option Vec :=
  match cache with
  | [] => none
  | (k, v) :: rest => if k = q then some v else cacheLookup rest q

/-- The whitespace set of Python's `str.strip()` (ASCII whitespace). -/
def isPySpace (c : Char) : Bool :=
  c = ' ' || c = '\t' || c = '\n' || c = '\r' || c = '\x0b' || c = '\x0c'

/-- Python's `query.strip()`: drop leading and trailing whitespace. -/
def pyStrip (s : Str) : Str :=
  ((s.dropWhile isPySpace).reverse.dropWhile isPySpace).reverse

/--
The function `get_query_embedding(query)` from rag_core.py, with the external
embedding model passed as `embed` and the cache threaded explicitly.
The third component counts how many times the embedding model was
invoked during the call (0 on a cache hit, 1 on a miss), making the
"computed exactly once" part of the spec observable.
-/
def get_query_embedding (embed : Str → Vec) (cache : Cache) (query : Str) :
    Vec × Cache × ℕ :=
  let q := pyStrip query
  match cacheLookup cache q with
  | some v => (v, cache, 0)
  | none =>
    let emb := embed q
    let cache' := if MAX_QUERY_CACHE_SIZE ≤ cache.length then cache.tail else cache
    (emb, cache' ++ [(q, emb)], 1)

theorem cacheLookup_eq_none_iff (cache : Cache) (q : Str) :
    cacheLookup cache q = none ↔ q ∉ cache.map Prod.fst := by
  induction cache with
  | nil => simp [cacheLookup]
  | cons kv rest ih =>
    obtain ⟨k, v⟩ := kv
    simp only [cacheLookup, List.map_cons, List.mem_cons]
    by_cases hk : k = q
    · subst hk
      simp
    · rw [if_neg hk, ih]
      constructor
      · intro hnot hmem
        rcases hmem with hmem | hmem
        · exact hk hmem.symm
        · exact hnot hmem
      · intro hnot hmem
        exact hnot (Or.inr hmem)

theorem cacheLookup_append_last (cache : Cache) (q : Str) (v : Vec)
    (hmiss : cacheLookup cache q = none) :
    cacheLookup (cache ++ [(q, v)]) q = some v := by
  induction cache with
  | nil => simp [cacheLookup]
  | cons kv rest ih =>
    obtain ⟨k, w⟩ := kv
    by_cases hk : k = q
    · subst hk
      simp [cacheLookup] at hmiss
    · simp only [cacheLookup, if_neg hk] at hmiss ⊢
      exact ih hmiss

/--
C7: `get_query_embedding` trims the key; on a hit it returns the cached
vector, leaves the cache unchanged and does not invoke the embedding
model; on a miss it invokes it exactly once, stores the result under
the trimmed key, and returns it; hence two queries that differ only in
surrounding whitespace yield the same embedding with at most one
model invocation over the two calls.
-/
theorem get_query_embedding_spec (embed : Str → Vec) (cache : Cache) (query : Str) :
    (∀ v, cacheLookup cache (pyStrip query) = some v →
        get_query_embedding embed cache query = (v, cache, 0))
      ∧ (cacheLookup cache (pyStrip query) = none →
          (get_query_embedding embed cache query).1 = embed (pyStrip query)
            ∧ (get_query_embedding embed cache query).2.2 = 1
            ∧ cacheLookup (get_query_embedding embed cache query).2.1 (pyStrip query)
                = some (embed (pyStrip query)))
      ∧ (∀ query₂, pyStrip query₂ = pyStrip query →
          (get_query_embedding embed
              (get_query_embedding embed cache query).2.1 query₂).1
            = (get_query_embedding embed cache query).1
          ∧ (get_query_embedding embed cache query).2.2
              + (get_query_embedding embed
                  (get_query_embedding embed cache query).2.1 query₂).2.2 ≤ 1) := by
  refine ⟨?_, ?_, ?_⟩
  · intro v hv
    simp [get_query_embedding, hv]
  · intro hmiss
    have htail : cacheLookup cache.tail (pyStrip query) = none := by
      rw [cacheLookup_eq_none_iff] at hmiss ⊢
      intro hmem
      exact hmiss (List.map_subset Prod.fst (List.tail_subset cache) hmem)
    refine ⟨by simp [get_query_embedding, hmiss], by simp [get_query_embedding, hmiss], ?_⟩
    simp only [get_query_embedding, hmiss]
    by_cases hlen : MAX_QUERY_CACHE_SIZE ≤ cache.length
    · simpa [hlen] using cacheLookup_append_last cache.tail _ _ htail
    · simpa [hlen] using cacheLookup_append_last cache _ _ hmiss
  · intro query₂ hq₂
    cases hl : cacheLookup cache (pyStrip query) with
    | some v =>
      have h1 : get_query_embedding embed cache query = (v, cache, 0) := by
        simp [get_query_embedding, hl]
      have h2 : get_query_embedding embed cache query₂ = (v, cache, 0) := by
        simp [get_query_embedding, hq₂, hl]
      rw [h1]
      simp [h2]
    | none =>
      have htail : cacheLookup cache.tail (pyStrip query) = none := by
        rw [cacheLookup_eq_none_iff] at hl ⊢
        intro hmem
        exact hl (List.map_subset Prod.fst (List.tail_subset cache) hmem)
      set c1 : Cache :=
        (if MAX_QUERY_CACHE_SIZE ≤ cache.length then cache.tail else cache)
          ++ [(pyStrip query, embed (pyStrip query))] with hc1
      have h1 : get_query_embedding embed cache query
          = (embed (pyStrip query), c1, 1) := by
        simp [get_query_embedding, hl, hc1]
      have hhit₂ : cacheLookup c1 (pyStrip query₂)
          = some (embed (pyStrip query)) := by
        rw [hq₂, hc1]
        by_cases hlen : MAX_QUERY_CACHE_SIZE ≤ cache.length
        · rw [if_pos hlen]
          exact cacheLookup_append_last _ _ _ htail
        · rw [if_neg hlen]
          exact cacheLookup_append_last _ _ _ hl
      have h2 : get_query_embedding embed c1 query₂
          = (embed (pyStrip query), c1, 0) := by
        simp [get_query_embedding, hhit₂]
      rw [h1]
      simp [h2]

/-- Concrete instance of `get_query_embedding_spec`: the cache holds
`"q"`; `"q"` hits, `" q "` reuses it with no second computation. -/
theorem get_query_embedding_spec_witness :
    (cacheLookup [("q".data, [1])] (pyStrip "q".data) = some [1] →
        get_query_embedding (fun _ => [0]) [("q".data, [1])] "q".data
          = ([1], [("q".data, [1])], 0))
      ∧ cacheLookup [("q".data, [1])] (pyStrip "q".data) = some [1]
      ∧ pyStrip " q ".data = pyStrip "q".data :=
  ⟨fun h => (get_query_embedding_spec (fun _ => [0]) [("q".data, [1])] "q".data).1 [1] h,
   by decide, by decide⟩

theorem cacheFold_fill (embed : Str → Vec) :
    ∀ (ks : List Str) (cache : Cache),
      (ks.map pyStrip).Nodup →
      (∀ k ∈ ks, pyStrip k ∉ cache.map Prod.fst) →
      cache.length + ks.length ≤ MAX_QUERY_CACHE_SIZE →
      ks.foldl (fun c k => (get_query_embedding embed c k).2.1) cache
        = cache ++ ks.map (fun k => (pyStrip k, embed (pyStrip k))) := by
  intro ks
  induction ks with
  | nil => intro cache _ _ _; simp
  | cons k ks ih =>
    intro cache hnd hfresh hlen
    have hmiss : cacheLookup cache (pyStrip k) = none :=
      (cacheLookup_eq_none_iff cache (pyStrip k)).mpr
        (hfresh k (List.mem_cons_self k ks))
    have hnoevict : ¬ MAX_QUERY_CACHE_SIZE ≤ cache.length := by
      simp only [List.length_cons] at hlen
      omega
    have hstep : (get_query_embedding embed cache k).2.1
        = cache ++ [(pyStrip k, embed (pyStrip k))] := by
      simp [get_query_embedding, hmiss, hnoevict]
    rw [List.foldl_cons, hstep,
      ih (cache ++ [(pyStrip k, embed (pyStrip k))]) (List.Nodup.of_cons hnd) ?fresh ?len]
    · simp
    case fresh =>
      intro k' hk'
      simp only [List.map_append, List.map_cons, List.map_nil, List.mem_append,
        List.mem_singleton]
      rintro (hmem | hmem)
      · exact hfresh k' (List.mem_cons_of_mem k hk') hmem
      · have hne : pyStrip k' ≠ pyStrip k := by
          have hk'' : pyStrip k' ∈ ks.map pyStrip := List.mem_map_of_mem pyStrip hk'
          intro heq
          simp only [List.map_cons, List.nodup_cons] at hnd
          exact hnd.1 (heq ▸ hk'')
        exact hne hmem
    case len =>
      simp only [List.length_append, List.length_cons, List.length_nil] at *
      omega

/--
C3: starting from the empty cache, inserting `MAX_QUERY_CACHE_SIZE + 1`
queries with pairwise-distinct trimmed keys leaves a cache that is
exactly the insertion sequence minus its first (oldest) entry: the
bound of 100 entries holds and the evicted entry is the
oldest-inserted one (FIFO).
-/
theorem query_cache_fifo (embed : Str → Vec) (ks : List Str)
    (hlen : ks.length = MAX_QUERY_CACHE_SIZE + 1)
    (hnd : (ks.map pyStrip).Nodup) :
    ks.foldl (fun c k => (get_query_embedding embed c k).2.1) ([] : Cache)
        = (ks.map (fun k => (pyStrip k, embed (pyStrip k)))).tail
      ∧ (ks.foldl (fun c k => (get_query_embedding embed c k).2.1) ([] : Cache)).length
          = MAX_QUERY_CACHE_SIZE := by
  have hne : ks ≠ [] := by
    intro hcon
    rw [hcon] at hlen
    simp [MAX_QUERY_CACHE_SIZE] at hlen
  have hsplit : ks.dropLast ++ [ks.getLast hne] = ks :=
    List.dropLast_append_getLast hne
  set l := ks.dropLast with hl
  set z := ks.getLast hne with hz
  have hllen : l.length = MAX_QUERY_CACHE_SIZE := by
    have := List.length_dropLast ks
    rw [← hl] at this
    omega
  have hndl : (l.map pyStrip).Nodup := by
    have hsub : (l.map pyStrip).Sublist (ks.map pyStrip) :=
      List.Sublist.map pyStrip (List.dropLast_sublist ks)
    exact hsub.nodup hnd
  have hfill :
      l.foldl (fun c k => (get_query_embedding embed c k).2.1) ([] : Cache)
        = l.map (fun k => (pyStrip k, embed (pyStrip k))) := by
    have h := cacheFold_fill embed l [] hndl (by simp)
      (by simp only [List.length_nil]; omega)
    simpa using h
  have hzfresh : pyStrip z ∉ (l.map pyStrip) := by
    have : (l.map pyStrip ++ [pyStrip z]).Nodup := by
      have : (l ++ [z]).map pyStrip = l.map pyStrip ++ [pyStrip z] := by simp
      rw [← this, hsplit]
      exact hnd
    rcases List.nodup_append.mp this with ⟨_, _, hdisj⟩
    intro hmem
    exact hdisj hmem (List.mem_singleton_self _)
  have hmiss : cacheLookup (l.map (fun k => (pyStrip k, embed (pyStrip k)))) (pyStrip z)
      = none := by
    rw [cacheLookup_eq_none_iff]
    intro hmem
    apply hzfresh
    rw [List.map_map] at hmem
    simpa using hmem
  have hevict : MAX_QUERY_CACHE_SIZE ≤ l.length := le_of_eq hllen.symm
  obtain ⟨a, as, hcons⟩ :=
    List.exists_cons_of_ne_nil
      (show l.map (fun k => (pyStrip k, embed (pyStrip k))) ≠ [] by
        intro hcon
        have := congrArg List.length hcon
        rw [List.length_map, hllen] at this
        simp [MAX_QUERY_CACHE_SIZE] at this)
  have hfold :
      ks.foldl (fun c k => (get_query_embedding embed c k).2.1) ([] : Cache)
        = (l.map (fun k => (pyStrip k, embed (pyStrip k)))).tail
            ++ [(pyStrip z, embed (pyStrip z))] := by
    conv_lhs => rw [← hsplit]
    rw [List.foldl_append, hfill]
    simp only [List.foldl_cons, List.foldl_nil]
    simp [get_query_embedding, hmiss, hevict, hllen]
  have hmap : ks.map (fun k => (pyStrip k, embed (pyStrip k)))
      = l.map (fun k => (pyStrip k, embed (pyStrip k)))
          ++ [(pyStrip z, embed (pyStrip z))] := by
    conv_lhs => rw [← hsplit]
    simp
  constructor
  · rw [hfold, hmap, hcons]
    simp
  · rw [hfold]
    rw [List.length_append, List.length_tail, List.length_map, hllen]
    simp [MAX_QUERY_CACHE_SIZE]

/-- A list of 101 concrete pairwise-distinct two-letter keys for the cache witness. -/
def cacheKeysW : List Str :=
  (List.range (MAX_QUERY_CACHE_SIZE + 1)).map
    (fun n => [Char.ofNat (65 + n / 26), Char.ofNat (65 + n % 26)])

/-- A concrete stand-in for the external embedding model. -/
def embedW : Str → Vec := fun _ => [1]

/-- Concrete instance of `query_cache_fifo` at 101 distinct keys. -/
theorem query_cache_fifo_witness :
    cacheKeysW.length = MAX_QUERY_CACHE_SIZE + 1
      ∧ (cacheKeysW.map pyStrip).Nodup
      ∧ (cacheKeysW.foldl (fun c k => (get_query_embedding embedW c k).2.1) ([] : Cache)
            = (cacheKeysW.map (fun k => (pyStrip k, embedW (pyStrip k)))).tail
          ∧ (cacheKeysW.foldl
              (fun c k => (get_query_embedding embedW c k).2.1) ([] : Cache)).length
              = MAX_QUERY_CACHE_SIZE) :=
  ⟨by decide, by decide, query_cache_fifo embedW cacheKeysW (by decide) (by decide)⟩

/-! ## Retrieval (`cosine_sim`, `retrieve_top_k`, rag_core.py lines 92-119) -/

/-- The constant `TOP_K` from config.py. -/
def TOP_K : ℕ := 3

/-- The function `cosine_sim(a, b) = np.dot(a, b)` (vectors are pre-normalized). -/
def cosine_sim (a b : Vec) : ℚ :=
  (List.zipWith (· * ·) a b).sum

/-- A stored chunk row as returned by `load_all_chunks`. -/
structure Row where
  doc_name : Str
  text : Str
  emb : Vec

/-- Scoring pass of `retrieve_top_k`: one `(score, doc_name, chunk_text)`
tuple per stored row, in storage order. -/
def scoreChunks (queryVec : Vec) (store : List Row) : List (ℚ × Str × Str) :=
  store.map (fun r => (cosine_sim queryVec r.emb, r.doc_name, r.text))

/-- The comparison of `scored.sort(key=lambda x: x[0], reverse=True)`:
a stable sort that puts higher scores first. -/
def scoreLe (a b : ℚ × Str × Str) : Bool :=
  decide (b.1 ≤ a.1)

/--
The function `retrieve_top_k(query, k)` from rag_core.py: resolve the query vector
through the cache, score every stored chunk, stable-sort by descending
score, and return the first `k`.  The cache and the embedding-model
call count are threaded through as in `get_query_embedding`.
-/
def retrieve_top_k (embed : Str → Vec) (cache : Cache) (store : List Row)
    (query : Str) (k : ℕ) : List (ℚ × Str × Str) × Cache × ℕ :=
  let r := get_query_embedding embed cache query
  let scored := scoreChunks r.1 store
  ((scored.mergeSort scoreLe).take k, r.2.1, r.2.2)

theorem scoreLe_trans (a b c : ℚ × Str × Str) :
    scoreLe a b = true → scoreLe b c = true → scoreLe a c = true := by
  simp only [scoreLe, decide_eq_true_eq]
  exact fun h1 h2 => le_trans h2 h1

theorem scoreLe_total (a b : ℚ × Str × Str) :
    (scoreLe a b || scoreLe b a) = true := by
  simp only [scoreLe, Bool.or_eq_true, decide_eq_true_eq]
  exact le_total b.1 a.1

/-- Stability of the sort in `retrieve_top_k`: chunks of any fixed score
appear in the sorted list exactly in storage order. -/
theorem mergeSort_filter_score (l : List (ℚ × Str × Str)) (q : ℚ) :
    (l.mergeSort scoreLe).filter (fun x => x.1 = q)
      = l.filter (fun x => x.1 = q) := by
  have hpair : (l.filter (fun x => decide (x.1 = q))).Pairwise
      (fun a b => scoreLe a b = true) := by
    refine List.pairwise_of_forall_mem_list ?_
    intro a ha b hb
    have ha' := List.of_mem_filter ha
    have hb' := List.of_mem_filter hb
    rw [decide_eq_true_eq] at ha' hb'
    simp [scoreLe, ha', hb']
  have hsub : (l.filter (fun x => decide (x.1 = q))).Sublist (l.mergeSort scoreLe) :=
    List.mergeSort_stable scoreLe_trans scoreLe_total hpair (List.filter_sublist l)
  have hsub2 := List.Sublist.filter (fun x => decide (x.1 = q)) hsub
  rw [List.filter_filter] at hsub2
  have hself : (l.filter fun a => decide (a.1 = q) && decide (a.1 = q))
      = l.filter (fun x => decide (x.1 = q)) := by
    simp
  rw [hself] at hsub2
  have hperm : ((l.mergeSort scoreLe).filter (fun x => decide (x.1 = q))).Perm
      (l.filter (fun x => decide (x.1 = q))) :=
    (List.mergeSort_perm l scoreLe).filter _
  exact (hsub2.eq_of_length hperm.length_eq.symm).symm

/-- Filtering a prefix gives a prefix of the filtered list. -/
theorem filter_take_pre {α : Type} (l : List α) (p : α → Bool) (k : ℕ) :
    ∃ m, (l.take k).filter p = (l.filter p).take m := by
  refine ⟨((l.take k).filter p).length, ?_⟩
  have h : l.filter p = (l.take k).filter p ++ (l.drop k).filter p := by
    rw [← List.filter_append, List.take_append_drop]
  rw [h, List.take_left]

/--
C2: `retrieve_top_k` returns a sequence sorted by non-increasing score,
of length `min k N` where `N` is the number of stored chunks (hence
`≤ k` and `≤ N`); the empty store yields the empty sequence; and for
every score value the returned entries with that score are an initial
segment of the same-score entries in storage order (deterministic FIFO
tie-break by insertion id).
-/
theorem retrieve_top_k_spec (embed : Str → Vec) (cache : Cache) (store : List Row)
    (query : Str) (k : ℕ) :
    (retrieve_top_k embed cache store query k).1.Pairwise
        (fun a b => b.1 ≤ a.1)
      ∧ (retrieve_top_k embed cache store query k).1.length = min k store.length
      ∧ (retrieve_top_k embed cache ([] : List Row) query k).1 = []
      ∧ (∀ q : ℚ, ∃ m,
          (retrieve_top_k embed cache store query k).1.filter (fun x => x.1 = q)
            = ((scoreChunks (get_query_embedding embed cache query).1 store).filter
                (fun x => x.1 = q)).take m) := by
  refine ⟨?_, ?_, ?_, ?_⟩
  · have hsorted : ((scoreChunks (get_query_embedding embed cache query).1
        store).mergeSort scoreLe).Pairwise (fun a b => scoreLe a b = true) :=
      List.sorted_mergeSort scoreLe_trans scoreLe_total _
    have htake := hsorted.sublist (List.take_sublist k _)
    refine htake.imp ?_
    intro a b h
    rwa [scoreLe, decide_eq_true_eq] at h
  · rw [retrieve_top_k]
    simp only [List.length_take]
    rw [(List.mergeSort_perm _ scoreLe).length_eq]
    rw [scoreChunks, List.length_map]
  · rw [retrieve_top_k]
    simp [scoreChunks]
  · intro q
    rw [retrieve_top_k]
    simp only
    obtain ⟨m, hm⟩ := filter_take_pre
      ((scoreChunks (get_query_embedding embed cache query).1 store).mergeSort scoreLe)
      (fun x => decide (x.1 = q)) k
    refine ⟨m, ?_⟩
    rw [hm, mergeSort_filter_score]

/-! ## RAG pipeline (`run_rag_pipeline`, rag_core.py lines 198-224)

`call_llm` wraps the remote completion service; any exception it raises
is modelled by `Except.error`.  `f"{score:.3f}"` formatting is the
uninterpreted parameter `fmt3`.
-/

/-- The fixed "no documents indexed" message of `run_rag_pipeline`. -/
def noDocsMsg : Str :=
  "I have no documents indexed yet. Check your docs/ folder.".data

/-- The fixed LLM-failure message of `run_rag_pipeline`. -/
def llmErrorMsg : Str :=
  "Error calling LLM. Check server logs/config.".data

/-- One `context_str` block: `f"[From {doc_name}, score={score:.3f}]\n{chunk_text}\n\n"`. -/
def mkContextEntry (fmt3 : ℚ → Str) (score : ℚ) (doc_name text : Str) : Str :=
  "[From ".data ++ doc_name ++ ", score=".data ++ fmt3 score ++ "]\n".data
    ++ text ++ "\n\n".data

/-- The snippet `chunk_text.replace("\n", " ")` then truncation to 120
characters with an ellipsis marker when longer. -/
def mkSnippet (text : Str) : Str :=
  let s := text.map (fun c => if c = '\n' then ' ' else c)
  if 120 < s.length then s.take 120 ++ "...".data else s

/-- One citation line: `f"- {doc_name} (score={score:.3f}) → \"{snippet}\""`. -/
def mkSourceLine (fmt3 : ℚ → Str) (score : ℚ) (doc_name text : Str) : Str :=
  "- ".data ++ doc_name ++ " (score=".data ++ fmt3 score ++ ") → \"".data
    ++ mkSnippet text ++ "\"".data

/--
The function `run_rag_pipeline(query)` from rag_core.py.  Returns
`((answer, sources_lines), cache', llmCalls)` where `llmCalls` counts
invocations of `call_llm` (0 or 1), making "no LLM call made"
observable.  The try/except around `call_llm` is modelled by matching
on the `Except` result: an `Except.error` is caught here and mapped to
the fixed error message, so the function is total and no exception
escapes.
-/
def run_rag_pipeline (embed : Str → Vec) (fmt3 : ℚ → Str)
    (llm : Str → Str → Except Unit Str) (cache : Cache) (store : List Row)
    (query : Str) : (Str × List Str) × Cache × ℕ :=
  let r := retrieve_top_k embed cache store query TOP_K
  if r.1 = [] then
    ((noDocsMsg, []), r.2.1, 0)
  else
    let context := (r.1.map (fun t => mkContextEntry fmt3 t.1 t.2.1 t.2.2)).flatten
    let lines := r.1.map (fun t => mkSourceLine fmt3 t.1 t.2.1 t.2.2)
    match llm context query with
    | Except.error _ => ((llmErrorMsg, []), r.2.1, 1)
    | Except.ok ans => ((ans, lines), r.2.1, 1)

/--
C4: if the LLM call fails while the retrieved chunk set is non-empty,
`run_rag_pipeline` catches the failure and returns the fixed
user-facing error message with an empty citation list (the function is
total, so no exception reaches the caller); the LLM was called once.
-/
theorem llm_error_isolated (embed : Str → Vec) (fmt3 : ℚ → Str)
    (llm : Str → Str → Except Unit Str) (cache : Cache) (store : List Row)
    (query : Str)
    (htop : (retrieve_top_k embed cache store query TOP_K).1 ≠ [])
    (herr : ∀ c q, llm c q = Except.error ()) :
    (run_rag_pipeline embed fmt3 llm cache store query).1 = (llmErrorMsg, [])
      ∧ (run_rag_pipeline embed fmt3 llm cache store query).2.2 = 1 := by
  rw [run_rag_pipeline]
  simp [if_neg htop, herr]

/-- A one-row store used by the pipeline witnesses. -/
def storeW : List Row := [⟨"a.txt".data, "hello".data, [1]⟩]

/-- Concrete instance of `llm_error_isolated`: one stored chunk, an LLM
that always fails. -/
theorem llm_error_isolated_witness :
    (retrieve_top_k embedW [] storeW "hi".data TOP_K).1 ≠ []
      ∧ ((run_rag_pipeline embedW (fun _ => "0.000".data)
            (fun _ _ => Except.error ()) [] storeW "hi".data).1
          = (llmErrorMsg, [])
        ∧ (run_rag_pipeline embedW (fun _ => "0.000".data)
            (fun _ _ => Except.error ()) [] storeW "hi".data).2.2 = 1) := by
  have htop : (retrieve_top_k embedW [] storeW "hi".data TOP_K).1 ≠ [] := by
    rw [retrieve_top_k]
    simp [scoreChunks, storeW, TOP_K]
  exact ⟨htop, llm_error_isolated embedW (fun _ => "0.000".data)
    (fun _ _ => Except.error ()) [] storeW "hi".data htop (fun _ _ => rfl)⟩

/-! ## Document indexing (`index_documents`, rag_core.py lines 135-160) -/

/-- A directory entry seen by `docs_path.glob("*")`. -/
structure DocFile where
  name : Str
  suffix : Str
  isFile : Bool
  content : Str

/-- The provenance header `f"[DOC: {doc_name}]\n"` added by the indexer. -/
def docHeader (doc_name : Str) : Str :=
  "[DOC: ".data ++ doc_name ++ "]\n".data

/-- Rows contributed by one directory entry: skipped unless it is a
file with suffix `.txt` or `.md`; otherwise the content is chunked,
each chunk prefixed with the document header, embedded and stored. -/
def indexDoc (embed : Str → Vec) (f : DocFile) : List Row :=
  if f.isFile = false then []
  else if ¬ (f.suffix = ".txt".data ∨ f.suffix = ".md".data) then []
  else
    ((chunk_text f.content 500).map (fun c => docHeader f.name ++ c)).map
      (fun c => ⟨f.name, c, embed c⟩)

/-- The function `index_documents()` from rag_core.py: the store contents after a
full re-index.  `none` models a missing docs directory (the store was
already cleared, a warning is logged, nothing is inserted). -/
def index_documents (embed : Str → Vec) (docsDir : Option (List DocFile)) :
    List Row :=
  match docsDir with
  | none => []
  | some files => (files.map (indexDoc embed)).flatten

/--
C5: if retrieval yields zero chunks, `run_rag_pipeline` returns the
fixed "no documents indexed" message with empty citations and performs
no LLM call; re-indexing over a missing or empty docs directory leaves
the store with zero rows, and retrieval over the empty store yields
zero chunks.
-/
theorem no_docs_short_circuit (embed : Str → Vec) (fmt3 : ℚ → Str)
    (llm : Str → Str → Except Unit Str) (cache : Cache) (store : List Row)
    (query : Str)
    (hempty : (retrieve_top_k embed cache store query TOP_K).1 = []) :
    (run_rag_pipeline embed fmt3 llm cache store query).1 = (noDocsMsg, [])
      ∧ (run_rag_pipeline embed fmt3 llm cache store query).2.2 = 0
      ∧ index_documents embed none = []
      ∧ index_documents embed (some []) = []
      ∧ (retrieve_top_k embed cache ([] : List Row) query TOP_K).1 = [] := by
  refine ⟨?_, ?_, rfl, ?_, ?_⟩
  · rw [run_rag_pipeline]
    simp [hempty]
  · rw [run_rag_pipeline]
    simp [hempty]
  · simp [index_documents]
  · rw [retrieve_top_k]
    simp [scoreChunks]

/-- Concrete instance of `no_docs_short_circuit` over the empty store. -/
theorem no_docs_short_circuit_witness :
    (retrieve_top_k embedW [] ([] : List Row) "anything".data TOP_K).1 = []
      ∧ ((run_rag_pipeline embedW (fun _ => "0.000".data)
            (fun _ _ => Except.ok "yes".data) [] ([] : List Row) "anything".data).1
          = (noDocsMsg, [])
        ∧ (run_rag_pipeline embedW (fun _ => "0.000".data)
            (fun _ _ => Except.ok "yes".data) [] ([] : List Row)
            "anything".data).2.2 = 0) := by
  have hempty : (retrieve_top_k embedW [] ([] : List Row) "anything".data TOP_K).1
      = [] := by
    rw [retrieve_top_k]
    simp [scoreChunks]
  have h := no_docs_short_circuit embedW (fun _ => "0.000".data)
    (fun _ _ => Except.ok "yes".data) [] [] "anything".data hempty
  exact ⟨hempty, h.1, h.2.1⟩

/-- A text no longer than `max_chars` comes back as a single chunk. -/
theorem chunk_text_all (text : Str) (M : ℕ) (h1 : 0 < text.length)
    (h2 : text.length ≤ M) : chunk_text text M = [text] := by
  rw [chunk_text, chunkTextLoop, dif_pos ⟨h1, by omega⟩, chunkTextLoop,
    dif_neg (by omega : ¬ (0 + M < text.length ∧ 0 < M))]
  rw [List.drop_zero, List.take_of_length_le h2]

/--
C6: every chunk stored by the indexer has its text prefixed with the
document header exactly once — the stored text is the header followed
by a chunk produced by the (header-free) chunker; and for a docs
directory holding only `a.txt` = "hello world", exactly one chunk is
stored, with `doc_name = "a.txt"` and text `"[DOC: a.txt]\nhello world"`.
-/
theorem indexed_chunks_header (embed : Str → Vec) :
    (∀ (files : List DocFile), ∀ r ∈ index_documents embed (some files),
        ∃ f ∈ files, ∃ c ∈ chunk_text f.content 500,
          r.doc_name = f.name ∧ r.text = docHeader f.name ++ c)
      ∧ index_documents embed
            (some [⟨"a.txt".data, ".txt".data, true, "hello world".data⟩])
          = [⟨"a.txt".data, "[DOC: a.txt]\nhello world".data,
              embed "[DOC: a.txt]\nhello world".data⟩] := by
  constructor
  · intro files r hr
    rw [index_documents, List.mem_flatten] at hr
    obtain ⟨rows, hrows, hrmem⟩ := hr
    rw [List.mem_map] at hrows
    obtain ⟨f, hf, hfrows⟩ := hrows
    refine ⟨f, hf, ?_⟩
    rw [← hfrows, indexDoc] at hrmem
    by_cases hfile : f.isFile = false
    · rw [if_pos hfile] at hrmem
      exact absurd hrmem (List.not_mem_nil r)
    · rw [if_neg hfile] at hrmem
      by_cases hsuf : ¬ (f.suffix = ".txt".data ∨ f.suffix = ".md".data)
      · rw [if_pos hsuf] at hrmem
        exact absurd hrmem (List.not_mem_nil r)
      · rw [if_neg hsuf, List.map_map] at hrmem
        rw [List.mem_map] at hrmem
        obtain ⟨c, hc, hcr⟩ := hrmem
        exact ⟨c, hc, by rw [← hcr]; rfl, by rw [← hcr]; rfl⟩
  · rw [index_documents]
    simp only [List.map_cons, List.map_nil, List.flatten]
    rw [indexDoc]
    rw [if_neg (by decide), if_neg (by decide)]
    rw [chunk_text_all _ _ (by decide) (by decide)]
    simp [docHeader]

/-- Concrete instance of `indexed_chunks_header`: the only stored row
of the `a.txt` scenario is header-prefixed. -/
theorem indexed_chunks_header_witness :
    (⟨"a.txt".data, "[DOC: a.txt]\nhello world".data,
        embedW "[DOC: a.txt]\nhello world".data⟩ : Row)
      ∈ index_documents embedW
          (some [⟨"a.txt".data, ".txt".data, true, "hello world".data⟩])
      ∧ ∃ f ∈ [(⟨"a.txt".data, ".txt".data, true, "hello world".data⟩ : DocFile)],
          ∃ c ∈ chunk_text f.content 500,
            ("a.txt".data : Str) = f.name
              ∧ ("[DOC: a.txt]\nhello world".data : Str) = docHeader f.name ++ c := by
  have hmem : (⟨"a.txt".data, "[DOC: a.txt]\nhello world".data,
      embedW "[DOC: a.txt]\nhello world".data⟩ : Row)
      ∈ index_documents embedW
          (some [⟨"a.txt".data, ".txt".data, true, "hello world".data⟩]) := by
    rw [(indexed_chunks_header embedW).2]
    exact List.mem_singleton_self _
  exact ⟨hmem, (indexed_chunks_header embedW).1 _ _ hmem⟩

/--
C8: on a non-empty retrieval with a successful LLM call, the pipeline
returns exactly one citation line per retrieved chunk (built by
`mkSourceLine` from the document name, the formatted score, and the
snippet); the snippet contains no newline (newlines are replaced by
spaces) and is truncated to 120 characters followed by `"..."` exactly
when the newline-collapsed text is longer than 120 characters.
-/
theorem citation_lines_spec (embed : Str → Vec) (fmt3 : ℚ → Str) (cache : Cache)
    (store : List Row) (query : Str) (ansOf : Str → Str → Str)
    (htop : (retrieve_top_k embed cache store query TOP_K).1 ≠ []) :
    ((run_rag_pipeline embed fmt3 (fun c q => Except.ok (ansOf c q))
          cache store query).1).2
        = (retrieve_top_k embed cache store query TOP_K).1.map
            (fun t => mkSourceLine fmt3 t.1 t.2.1 t.2.2)
      ∧ ((run_rag_pipeline embed fmt3 (fun c q => Except.ok (ansOf c q))
            cache store query).1).2.length
          = (retrieve_top_k embed cache store query TOP_K).1.length
      ∧ (∀ text : Str, '\n' ∉ mkSnippet text)
      ∧ (∀ text : Str,
          120 < (text.map (fun c => if c = '\n' then ' ' else c)).length →
            mkSnippet text
              = (text.map (fun c => if c = '\n' then ' ' else c)).take 120
                  ++ "...".data)
      ∧ (∀ text : Str,
          (text.map (fun c => if c = '\n' then ' ' else c)).length ≤ 120 →
            mkSnippet text = text.map (fun c => if c = '\n' then ' ' else c)) := by
  refine ⟨?_, ?_, ?_, ?_, ?_⟩
  · rw [run_rag_pipeline]
    simp [if_neg htop]
  · rw [run_rag_pipeline]
    simp [if_neg htop]
  · intro text
    simp only [mkSnippet]
    have hns : '\n' ∉ text.map (fun c => if c = '\n' then ' ' else c) := by
      intro hmem
      rw [List.mem_map] at hmem
      obtain ⟨c, _, hc⟩ := hmem
      by_cases h : c = '\n'
      · rw [if_pos h] at hc
        exact absurd hc (by decide)
      · rw [if_neg h] at hc
        exact h hc
    by_cases hlen : 120 < (text.map (fun c => if c = '\n' then ' ' else c)).length
    · rw [if_pos hlen]
      intro hmem
      rcases List.mem_append.mp hmem with hmem | hmem
      · exact hns (List.take_subset _ _ hmem)
      · revert hmem
        decide
    · rw [if_neg hlen]
      exact hns
  · intro text hlong
    simp only [mkSnippet]
    rw [if_pos hlong]
  · intro text hshort
    simp only [mkSnippet]
    rw [if_neg (by omega)]

/-- Concrete instance of `citation_lines_spec` on a one-row store. -/
theorem citation_lines_spec_witness :
    (retrieve_top_k embedW [] storeW "hi".data TOP_K).1 ≠ []
      ∧ ((run_rag_pipeline embedW (fun _ => "0.000".data)
            (fun c q => Except.ok (c ++ q)) [] storeW "hi".data).1).2
          = (retrieve_top_k embedW [] storeW "hi".data TOP_K).1.map
              (fun t => mkSourceLine (fun _ => "0.000".data) t.1 t.2.1 t.2.2) := by
  have htop : (retrieve_top_k embedW [] storeW "hi".data TOP_K).1 ≠ [] := by
    rw [retrieve_top_k]
    simp [scoreChunks, storeW, TOP_K]
  exact ⟨htop, (citation_lines_spec embedW (fun _ => "0.000".data) [] storeW
    "hi".data (fun c q => c ++ q) htop).1⟩

/-! ## Store (`insert_chunk` / `load_all_chunks`, rag_core.py lines 56-82)

`insert_chunk` serializes the embedding with
`json.dumps(embedding.tolist())` and `load_all_chunks` re-reads it with
`np.array(json.loads(emb_json), dtype=np.float32)`.  Every float32
value is a dyadic rational and hence has an exact finite decimal form;
we model one stored float as that exact decimal `mant / 10 ^ frac`
(`Dec` below), a serialized JSON number as its plain decimal character
string, and the JSON array as the list of its number tokens (the
brackets and commas of the array syntax round-trip trivially).
-/

/-- One exact decimal value `d.1 / 10 ^ d.2`. -/
abbrev Dec := ℤ × ℕ

/-- The rational value of a `Dec`. -/
def decVal (d : Dec) : ℚ := (d.1 : ℚ) / 10 ^ d.2

/-- Decimal digit to character. -/
def digitChar (d : ℕ) : Char := Char.ofNat (48 + d)

/-- Character to decimal digit. -/
def charDigit (c : Char) : ℕ := c.toNat - 48

/-- Big-endian decimal digits of `n`, as printed. -/
def natChars (n : ℕ) : Str :=
  if n = 0 then ['0'] else ((Nat.digits 10 n).reverse).map digitChar

/-- Exactly `k` fractional digits of `n < 10 ^ k`, with leading zeros. -/
def fracChars (n k : ℕ) : Str :=
  (((Nat.digits 10 n) ++ List.replicate (k - (Nat.digits 10 n).length) 0).reverse).map
    digitChar

/-- Value of a big-endian digit string. -/
def digitsVal (ds : Str) : ℕ :=
  ds.foldl (fun a c => a * 10 + charDigit c) 0

/-- Serialized unsigned decimal: `"<int>"` or `"<int>.<k digits>"`. -/
def dumpUnsigned (n k : ℕ) : Str :=
  if k = 0 then natChars n
  else natChars (n / 10 ^ k) ++ '.' :: fracChars (n % 10 ^ k) k

/-- Serialization by `json.dumps` of one float value. -/
def dumpNum (d : Dec) : Str :=
  (if d.1 < 0 then ['-'] else []) ++ dumpUnsigned d.1.natAbs d.2

/-- Parsing by `json.loads` of one unsigned number token. -/
def parseUnsigned (s : Str) : Option (ℕ × ℕ) :=
  let intPart := s.takeWhile (fun c => decide (c ≠ '.'))
  let rest := s.dropWhile (fun c => decide (c ≠ '.'))
  if intPart ≠ [] ∧ intPart.all Char.isDigit then
    match rest with
    | [] => some (digitsVal intPart, 0)
    | '.' :: frac =>
      if frac ≠ [] ∧ frac.all Char.isDigit then
        some (digitsVal intPart * 10 ^ frac.length + digitsVal frac, frac.length)
      else none
    | _ => none
  else none

/-- Parsing by `json.loads` of one number token (optional leading minus sign). -/
def parseNum (s : Str) : Option Dec :=
  match s with
  | [] => none
  | c :: rest =>
    if c = '-' then (parseUnsigned rest).map (fun p => (-(p.1 : ℤ), p.2))
    else (parseUnsigned (c :: rest)).map (fun p => ((p.1 : ℤ), p.2))

/-- A persisted row: `(id, doc_name, chunk_text, serialized embedding)`. -/
abbrev StoredRow := ℕ × Str × Str × List Str

/-- The function `insert_chunk(doc_name, chunk_text, embedding)`: append one row,
serializing the embedding; ids are assigned monotonically. -/
def insert_chunk (store : List StoredRow) (doc_name chunk : Str)
    (embedding : List Dec) : List StoredRow :=
  store ++ [(store.length + 1, doc_name, chunk, embedding.map dumpNum)]

/-- The function `load_all_chunks()`: full scan, parsing each stored embedding. -/
def load_all_chunks (store : List StoredRow) :
    List (ℕ × Str × Str × List (Option Dec)) :=
  store.map (fun r => (r.1, r.2.1, r.2.2.1, r.2.2.2.map parseNum))

theorem charDigit_digitChar (d : ℕ) (h : d < 10) : charDigit (digitChar d) = d := by
  interval_cases d <;> decide

theorem digitChar_isDigit (d : ℕ) (h : d < 10) : (digitChar d).isDigit = true := by
  interval_cases d <;> decide

theorem digitChar_ne_dot (d : ℕ) (h : d < 10) : digitChar d ≠ '.' := by
  interval_cases d <;> decide

theorem digitChar_ne_dash (d : ℕ) (h : d < 10) : digitChar d ≠ '-' := by
  interval_cases d <;> decide

theorem natChars_mem (n : ℕ) (c : Char) (hc : c ∈ natChars n) :
    ∃ d, d < 10 ∧ c = digitChar d := by
  rw [natChars] at hc
  by_cases hn : n = 0
  · rw [if_pos hn] at hc
    refine ⟨0, by omega, ?_⟩
    rw [List.mem_singleton] at hc
    rw [hc]
    decide
  · rw [if_neg hn, List.mem_map] at hc
    obtain ⟨d, hd, hdc⟩ := hc
    rw [List.mem_reverse] at hd
    exact ⟨d, Nat.digits_lt_base (by norm_num) hd, hdc.symm⟩

theorem fracChars_mem (n k : ℕ) (c : Char) (hc : c ∈ fracChars n k) :
    ∃ d, d < 10 ∧ c = digitChar d := by
  rw [fracChars, List.mem_map] at hc
  obtain ⟨d, hd, hdc⟩ := hc
  rw [List.mem_reverse, List.mem_append] at hd
  rcases hd with hd | hd
  · exact ⟨d, Nat.digits_lt_base (by norm_num) hd, hdc.symm⟩
  · rw [List.eq_of_mem_replicate hd] at hdc
    exact ⟨0, by omega, hdc.symm⟩

theorem natChars_ne_nil (n : ℕ) : natChars n ≠ [] := by
  rw [natChars]
  by_cases hn : n = 0
  · rw [if_pos hn]
    decide
  · rw [if_neg hn]
    intro hcon
    rw [List.map_eq_nil_iff, List.reverse_eq_nil_iff] at hcon
    exact hn (Nat.digits_eq_nil_iff_eq_zero.mp hcon)

theorem foldl_digitChars (L : List ℕ) (hL : ∀ d ∈ L, d < 10) :
    ∀ acc, (L.reverse.map digitChar).foldl (fun a c => a * 10 + charDigit c) acc
      = acc * 10 ^ L.length + Nat.ofDigits 10 L := by
  induction L with
  | nil =>
    intro acc
    simp [Nat.ofDigits]
  | cons d L ih =>
    intro acc
    rw [List.reverse_cons, List.map_append, List.foldl_append,
      ih (fun x hx => hL x (List.mem_cons_of_mem d hx)) acc]
    simp only [List.map_cons, List.map_nil, List.foldl_cons, List.foldl_nil]
    rw [charDigit_digitChar d (hL d (List.mem_cons_self d L)),
      Nat.ofDigits_cons, List.length_cons]
    ring

theorem digitsVal_natChars (n : ℕ) : digitsVal (natChars n) = n := by
  rw [natChars]
  by_cases hn : n = 0
  · rw [if_pos hn, hn]
    decide
  · rw [if_neg hn, digitsVal,
      foldl_digitChars _ (fun d hd => Nat.digits_lt_base (by norm_num) hd) 0,
      Nat.ofDigits_digits]
    ring

theorem ofDigits_replicate_zero (m : ℕ) :
    Nat.ofDigits 10 (List.replicate m 0) = 0 := by
  induction m with
  | zero => simp [Nat.ofDigits]
  | succ m ih =>
    rw [List.replicate_succ, Nat.ofDigits_cons, ih]

theorem digits_length_le_of_lt (n k : ℕ) (h : n < 10 ^ k) :
    (Nat.digits 10 n).length ≤ k := by
  rcases eq_or_ne n 0 with rfl | hn
  · simp
  · by_contra hcon
    push_neg at hcon
    have h10 : 10 ^ (Nat.digits 10 n).length ≤ 10 * n :=
      Nat.base_pow_length_digits_le 10 n (by norm_num) hn
    have hpow : 10 ^ (k + 1) ≤ 10 ^ (Nat.digits 10 n).length :=
      Nat.pow_le_pow_right (by norm_num) hcon
    have hle := le_trans hpow h10
    rw [pow_succ] at hle
    omega

theorem fracChars_spec (n k : ℕ) (h : n < 10 ^ k) :
    (fracChars n k).length = k ∧ digitsVal (fracChars n k) = n := by
  have hlen_le : (Nat.digits 10 n).length ≤ k := digits_length_le_of_lt n k h
  have hL : ∀ d ∈ Nat.digits 10 n ++ List.replicate (k - (Nat.digits 10 n).length) 0,
      d < 10 := by
    intro d hd
    rw [List.mem_append] at hd
    rcases hd with hd | hd
    · exact Nat.digits_lt_base (by norm_num) hd
    · rw [List.eq_of_mem_replicate hd]
      omega
  constructor
  · rw [fracChars, List.length_map, List.length_reverse, List.length_append,
      List.length_replicate]
    omega
  · rw [fracChars, digitsVal, foldl_digitChars _ hL 0, Nat.ofDigits_append,
      ofDigits_replicate_zero, Nat.ofDigits_digits]
    ring

theorem takeWhile_all (p : Char → Bool) (A : Str) (hA : ∀ c ∈ A, p c = true) :
    A.takeWhile p = A ∧ A.dropWhile p = [] := by
  constructor
  · exact List.takeWhile_eq_self_iff.mpr hA
  · exact List.dropWhile_eq_nil_iff.mpr hA

theorem takeWhile_append_stop (p : Char → Bool) (A B : Str) (x : Char)
    (hA : ∀ c ∈ A, p c = true) (hx : p x = false) :
    (A ++ x :: B).takeWhile p = A ∧ (A ++ x :: B).dropWhile p = x :: B := by
  induction A with
  | nil =>
    simp [List.takeWhile_cons, List.dropWhile_cons, hx]
  | cons a A ih =>
    have ha : p a = true := hA a (List.mem_cons_self a A)
    have ih' := ih (fun c hc => hA c (List.mem_cons_of_mem a hc))
    simp [List.takeWhile_cons, List.dropWhile_cons, ha, ih'.1, ih'.2]

theorem natChars_not_dot (n : ℕ) :
    ∀ c ∈ natChars n, (fun c => decide (c ≠ '.')) c = true := by
  intro c hc
  obtain ⟨d, hd, rfl⟩ := natChars_mem n c hc
  exact decide_eq_true (digitChar_ne_dot d hd)

theorem natChars_all_digit (n : ℕ) : (natChars n).all Char.isDigit = true := by
  rw [List.all_eq_true]
  intro c hc
  obtain ⟨d, hd, rfl⟩ := natChars_mem n c hc
  exact digitChar_isDigit d hd

theorem fracChars_all_digit (n k : ℕ) : (fracChars n k).all Char.isDigit = true := by
  rw [List.all_eq_true]
  intro c hc
  obtain ⟨d, hd, rfl⟩ := fracChars_mem n k c hc
  exact digitChar_isDigit d hd

theorem parseUnsigned_dumpUnsigned (n k : ℕ) :
    parseUnsigned (dumpUnsigned n k) = some (n, k) := by
  by_cases hk : k = 0
  · subst hk
    rw [dumpUnsigned, if_pos rfl]
    obtain ⟨ht, hd⟩ := takeWhile_all _ (natChars n) (natChars_not_dot n)
    rw [parseUnsigned]
    simp only [ht, hd]
    rw [if_pos ⟨natChars_ne_nil n, natChars_all_digit n⟩]
    rw [digitsVal_natChars]
  · rw [dumpUnsigned, if_neg hk]
    have hfrac := fracChars_spec (n % 10 ^ k) k
      (Nat.mod_lt n (by positivity))
    obtain ⟨ht, hd⟩ := takeWhile_append_stop _ (natChars (n / 10 ^ k))
      (fracChars (n % 10 ^ k) k) '.' (natChars_not_dot _) (by decide)
    rw [parseUnsigned]
    simp only [ht, hd]
    rw [if_pos ⟨natChars_ne_nil _, natChars_all_digit _⟩]
    have hfne : fracChars (n % 10 ^ k) k ≠ [] := by
      intro hcon
      have := hfrac.1
      rw [hcon] at this
      simp at this
      omega
    rw [if_pos ⟨hfne, fracChars_all_digit _ _⟩]
    rw [digitsVal_natChars, hfrac.1, hfrac.2]
    have hdm : n / 10 ^ k * 10 ^ k + n % 10 ^ k = n := by
      rw [Nat.mul_comm]
      exact Nat.div_add_mod n (10 ^ k)
    rw [hdm]

theorem dumpUnsigned_no_dash (n k : ℕ) :
    ∀ c ∈ dumpUnsigned n k, c ≠ '-' := by
  intro c hc
  rw [dumpUnsigned] at hc
  by_cases hk : k = 0
  · rw [if_pos hk] at hc
    obtain ⟨d, hd, rfl⟩ := natChars_mem n c hc
    exact digitChar_ne_dash d hd
  · rw [if_neg hk, List.mem_append, List.mem_cons] at hc
    rcases hc with hc | hc | hc
    · obtain ⟨d, hd, rfl⟩ := natChars_mem _ c hc
      exact digitChar_ne_dash d hd
    · rw [hc]
      decide
    · obtain ⟨d, hd, rfl⟩ := fracChars_mem _ _ c hc
      exact digitChar_ne_dash d hd

/-- The serializer/parser pair of the store round-trips every value. -/
theorem parseNum_dumpNum (d : Dec) : parseNum (dumpNum d) = some d := by
  obtain ⟨m, k⟩ := d
  rw [dumpNum]
  by_cases hm : m < 0
  · rw [if_pos hm]
    rw [List.singleton_append, parseNum, if_pos rfl,
      parseUnsigned_dumpUnsigned]
    have h1 : -((m.natAbs : ℤ)) = m := by omega
    simp only [Option.map_some']
    rw [h1]
  · rw [if_neg hm, List.nil_append]
    obtain ⟨c, cs, hu⟩ :=
      List.exists_cons_of_ne_nil (show dumpUnsigned m.natAbs k ≠ [] by
        rw [dumpUnsigned]
        by_cases hk : k = 0
        · rw [if_pos hk]; exact natChars_ne_nil _
        · rw [if_neg hk]
          intro hcon
          exact natChars_ne_nil _ (List.append_eq_nil.mp hcon).1)
    have hdash : c ≠ '-' := by
      refine dumpUnsigned_no_dash m.natAbs k c ?_
      rw [hu]
      exact List.mem_cons_self c cs
    rw [hu, parseNum, if_neg hdash, ← hu, parseUnsigned_dumpUnsigned]
    have h1 : ((m.natAbs : ℤ)) = m := by omega
    simp only [Option.map_some']
    rw [h1]

/--
C10: store round trip — inserting a row and loading the store back
returns all previous rows unchanged plus the new row, with `doc_name`
and text unchanged and the embedding parsing back to exactly the
inserted values (JSON serialize-then-parse is the identity on the
stored values).
-/
theorem store_roundtrip (store : List StoredRow) (doc chunk : Str)
    (emb : List Dec) :
    load_all_chunks (insert_chunk store doc chunk emb)
      = load_all_chunks store
          ++ [(store.length + 1, doc, chunk, emb.map some)] := by
  rw [insert_chunk, load_all_chunks, List.map_append, ← load_all_chunks]
  congr 1
  simp only [List.map_cons, List.map_nil, List.map_map]
  have hmap : List.map (parseNum ∘ dumpNum) emb = List.map some emb :=
    List.map_congr_left (fun d _ => parseNum_dumpNum d)
  rw [hmap]

end MiniRAG
